import Mathlib

/-!
Verification development for the internal-file-viewer repository.

The Python sources under scrutiny are embedded shallowly: pure helpers become
Lean functions over `List Char` / `String`, the stateful search index becomes a
record with explicit state-passing operations, file-system effects (the
conversion cache, the PDF library, the console input) become explicit
parameters.  Machine floats of the source (relevance scores, the 0.8 cache
factor) are modelled with `Rat`; wall-clock datetimes with integer seconds.
-/

namespace FileViewer

/-! ### Character/string utilities

The Python code works with `str`; we mirror the operations used by the
repository over `List Char`, so that everything reduces in the kernel. -/

/-- Prefix test on character lists (mirrors Python `str.startswith`). -/
def charsPre : List Char → List Char → Bool
  | [], _ => true
  | _ :: _, [] => false
  | a :: as, b :: bs => a = b && charsPre as bs

/-- Substring test on character lists (mirrors Python `in` on strings). -/
def charsSub (pat : List Char) : List Char → Bool
  | [] => charsPre pat []
  | c :: rest => charsPre pat (c :: rest) || charsSub pat rest

/-- Python `indexed_token.startswith(token)`. -/
def strStarts (s pre : String) : Bool := charsPre pre.data s.data

/-- Python `token in indexed_token` (substring containment). -/
def strContains (hay pat : String) : Bool := charsSub pat.data hay.data

/-- Python `str.lower()` restricted to ASCII (the repository lowercases file
names and query text; tokens are Hangul/ASCII where the two agree). -/
def lowerStr (s : String) : String := String.mk (s.data.map Char.toLower)

/-- Python slicing `s[:n]` by code points. -/
def takeStr (n : Nat) (s : String) : String := String.mk (s.data.take n)

/-- Python `str.strip()` (whitespace from both ends). -/
def stripWs (s : String) : String :=
  String.mk (((s.data.dropWhile Char.isWhitespace).reverse.dropWhile Char.isWhitespace).reverse)

/-- Worker for `splitWs`: accumulate the current word (reversed) and split at
whitespace, never emitting empty words — Python `str.split()` semantics. -/
def splitWsAux : List Char → List Char → List String
  | [], acc => if acc = [] then [] else [String.mk acc.reverse]
  | c :: cs, acc =>
    if c.isWhitespace then
      if acc = [] then splitWsAux cs []
      else String.mk acc.reverse :: splitWsAux cs []
    else splitWsAux cs (c :: acc)

/-- Python `str.split()` with no separator: split on whitespace runs. -/
def splitWs (s : String) : List String := splitWsAux s.data []

/-- Python `str.join` on a separator. -/
def joinSep (sep : String) : List String → String
  | [] => ""
  | [x] => x
  | x :: y :: xs => x ++ sep ++ joinSep sep (y :: xs)

/-- Python `str.split(',')`. -/
def splitCommaAux : List Char → List Char → List String
  | [], acc => [String.mk acc.reverse]
  | c :: cs, acc =>
    if c = ',' then String.mk acc.reverse :: splitCommaAux cs []
    else splitCommaAux cs (c :: acc)

/-- Python `str.split(',')` on a whole string. -/
def splitComma (s : String) : List String := splitCommaAux s.data []

/-- Python `os.path.basename` (POSIX): everything after the last slash. -/
def basenameAux : List Char → List Char → List Char
  | [], acc => acc.reverse
  | c :: cs, acc => if c = '/' then basenameAux cs [] else basenameAux cs (c :: acc)

/-- Python `os.path.basename` on a path string. -/
def basename (p : String) : String := String.mk (basenameAux p.data [])

/-! ### Search indexer (`src/utils/search_indexer.py`, class `SearchIndex`) -/

/-- Character classes kept by `SearchIndex._tokenize`'s regex
`[^가-힣a-zA-Z0-9\s]` (Hangul syllables, ASCII letters, digits). -/
def keepChar (c : Char) : Bool :=
  (0x61 ≤ c.toNat && c.toNat ≤ 0x7A) || (0x41 ≤ c.toNat && c.toNat ≤ 0x5A) ||
    (0x30 ≤ c.toNat && c.toNat ≤ 0x39) || (0xAC00 ≤ c.toNat && c.toNat ≤ 0xD7A3)

/-- One character of `_tokenize`'s preprocessing: lower-case, then replace
anything outside the kept classes and whitespace by a space. -/
def sanitizeChar (c : Char) : Char :=
  let c := c.toLower
  if keepChar c || c.isWhitespace then c else ' '

/-- Preprocessing of `_tokenize`: `re.sub(r'[^가-힣a-zA-Z0-9\s]', ' ', text.lower())`. -/
def sanitize (s : String) : String := String.mk (s.data.map sanitizeChar)

/-- Stop words of `SearchIndex._load_stop_words` (Korean ∪ English). -/
def stopWords : List String :=
  ["이", "그", "저", "것", "의", "가", "을", "를", "에", "에서", "로", "으로",
   "은", "는", "이다", "있다", "하다", "되다", "수", "등", "및", "또는",
   "그리고", "하지만", "그러나", "따라서", "그래서",
   "a", "an", "and", "are", "as", "at", "be", "by", "for", "from",
   "has", "he", "in", "is", "it", "its", "of", "on", "that", "the",
   "to", "was", "will", "with", "or", "but", "if", "this", "they"]

/-- `SearchIndex._tokenize`: sanitize, split on whitespace, keep tokens of
length ≥ 2 that are not stop words. -/
def tokenize (text : String) : List String :=
  (splitWs (sanitize text)).filter (fun t => 2 ≤ t.data.length && !(stopWords.contains t))

/-- Fields of the `file_info` dictionary handed to `add_file` that the claims
can observe through search results. -/
structure FileInfo where
  fileType : String
  fileSizeMb : Rat
  deriving DecidableEq

/-- Record stored in `SearchIndex.file_info` (the `indexed_time` wall-clock
field is not modelled; no claim observes it). -/
structure FileRecord where
  info : FileInfo
  contentPreview : String
  deriving DecidableEq

/-- State of a `SearchIndex`: the inverted index (token → postings set, as an
association list whose entry order models dict insertion order and whose
postings lists model sets) and the per-file records. -/
structure SearchIndex where
  index : List (String × List String)
  fileInfo : List (String × FileRecord)
  deriving DecidableEq

/-- Fresh index, as built by `SearchIndex.__init__`. -/
def SearchIndex.empty : SearchIndex := ⟨[], []⟩

/-- Python `self.index[token].add(path)` on a `defaultdict(set)`: update the
entry for `tok` (set insertion), creating it if absent. -/
def insertPosting (tok p : String) : List (String × List String) → List (String × List String)
  | [] => [(tok, [p])]
  | (t, ps) :: rest =>
    if t = tok then (t, if p ∈ ps then ps else ps ++ [p]) :: rest
    else (t, ps) :: insertPosting tok p rest

/-- Index part of `SearchIndex.remove_file`: discard `p` from every postings
set it occurs in, dropping entries whose postings set becomes empty. -/
def removeFileIndex (p : String) : List (String × List String) → List (String × List String)
  | [] => []
  | (t, ps) :: rest =>
    if p ∈ ps then
      let ps' := ps.filter (fun q => q ≠ p)
      if ps' = [] then removeFileIndex p rest
      else (t, ps') :: removeFileIndex p rest
    else (t, ps) :: removeFileIndex p rest

/-- `SearchIndex.remove_file`. -/
def SearchIndex.removeFile (s : SearchIndex) (p : String) : SearchIndex :=
  ⟨removeFileIndex p s.index, s.fileInfo.filter (fun e => e.1 ≠ p)⟩

/-- First-occurrence deduplication, modelling Python's `set(tokens)` (the
claims only observe membership, which is iteration-order independent). -/
def dedup : List String → List String
  | [] => []
  | t :: ts => t :: (dedup ts).filter (fun u => u ≠ t)

/-- Tokens a file contributes to the index: its basename concatenated with its
content, tokenized (`add_file`'s `all_content`). -/
def fileTokens (filePath content : String) : List String :=
  tokenize (basename filePath ++ " " ++ content)

/-- `SearchIndex.add_file`: remove any previous entry for the path, store the
file record (with the 200-character content preview), then insert the path
into the postings set of every distinct token. -/
def SearchIndex.addFile (s : SearchIndex) (filePath content : String) (info : FileInfo) :
    SearchIndex :=
  let s := s.removeFile filePath
  let record : FileRecord := ⟨info, takeStr 200 content⟩
  { index := (dedup (fileTokens filePath content)).foldl
      (fun ix t => insertPosting t filePath ix) s.index,
    fileInfo := s.fileInfo ++ [(filePath, record)] }

/-- One mutating operation on a `SearchIndex`. -/
inductive IndexOp
  | add (path content : String) (info : FileInfo)
  | remove (path : String)

/-- Interpret one operation. -/
def applyOp (s : SearchIndex) : IndexOp → SearchIndex
  | .add p c i => s.addFile p c i
  | .remove p => s.removeFile p

/-- Interpret a sequence of operations starting from the fresh index. -/
def applyOps (ops : List IndexOp) : SearchIndex := ops.foldl applyOp SearchIndex.empty

/-! ### Search (`SearchIndex.search` and `SearchIndex._calculate_relevance`) -/

/-- Dict lookup `self.index[token]` / membership `token in self.index`. -/
def lookupIndex (ix : List (String × List String)) (t : String) : Option (List String) :=
  match ix.find? (fun e => e.1 == t) with
  | some e => some e.2
  | none => none

/-- Dict lookup `self.file_info[file_path]`. -/
def lookupInfo (s : SearchIndex) (p : String) : Option FileRecord :=
  match s.fileInfo.find? (fun e => e.1 == p) with
  | some e => some e.2
  | none => none

/-- Set union `acc |= ps`, keeping first-seen order (the claims observe
membership only; CPython's set iteration order is unspecified). -/
def listUnion (a b : List String) : List String :=
  a ++ b.filter (fun x => !(a.contains x))

/-- Set intersection `a &= b` on the list model. -/
def listInter (a b : List String) : List String := a.filter (fun x => b.contains x)

/-- Per-token gathering step of `search`: files whose postings are reached by
an exact hit on `t`, or through any indexed token that starts with or
contains `t`. -/
def matchingFiles (ix : List (String × List String)) (t : String) : List String :=
  let exact := match lookupIndex ix t with
    | some ps => listUnion [] ps
    | none => []
  ix.foldl (fun acc e =>
    if strStarts e.1 t || strContains e.1 t then listUnion acc e.2 else acc) exact

/-- AND step of `search`: fold intersection over the per-token result sets. -/
def andFilesOf (ix : List (String × List String)) (qtoks : List String) : List String :=
  match qtoks.map (matchingFiles ix) with
  | [] => []
  | tr :: rest => rest.foldl listInter tr

/-- OR step of `search`: fold union over the per-token result sets. -/
def orFilesOf (ix : List (String × List String)) (qtoks : List String) : List String :=
  (qtoks.map (matchingFiles ix)).foldl listUnion []

/-- Candidate file list of `search` before truncation: the AND set, broadened
by appending OR-only files when the AND set has fewer than
`max_results // 2` entries. -/
def searchResultFiles (ix : List (String × List String)) (qtoks : List String) (m : Nat) :
    List String :=
  let andF := andFilesOf ix qtoks
  if andF.length < m / 2 then
    andF ++ (orFilesOf ix qtoks).filter (fun f => !(andF.contains f))
  else andF

/-- Worker for `_highlight_matches`: replace every (non-overlapping,
left-to-right) case-insensitive occurrence of the nonempty pattern by `rep`.
Structural recursion on a fuel argument (each step consumes at least one
character, so fuel = input length suffices). -/
def ciReplaceGo (pat rep : List Char) : Nat → List Char → List Char
  | 0, l => l
  | _ + 1, [] => []
  | fuel + 1, c :: cs =>
    if charsPre (pat.map Char.toLower) ((c :: cs).map Char.toLower) then
      rep ++ ciReplaceGo pat rep fuel (cs.drop (pat.length - 1))
    else c :: ciReplaceGo pat rep fuel cs

/-- Worker for `_highlight_matches` on whole character lists. -/
def ciReplaceAux (pat rep l : List Char) : List Char := ciReplaceGo pat rep l.length l

/-- `SearchIndex._highlight_matches`: wrap each query token's occurrences in
the preview text with `**token**`, one token at a time (query tokens are
never empty, so the empty-pattern case of `re.sub` does not arise). -/
def highlightMatches (text : String) (qtoks : List String) : String :=
  qtoks.foldl (fun acc tok =>
    match tok.data with
    | [] => acc
    | c :: cs => String.mk (ciReplaceAux (c :: cs) ("**" ++ tok ++ "**").data acc.data)) text

/-- `SearchIndex._calculate_relevance`: 0 for unknown files; otherwise, per
query token, +2.0 when the token occurs in the lower-cased basename, and
+1/len(postings) when the token is a key of the inverted index (note: keyed on
the index as a whole, not on this file's postings). -/
def calculateRelevance (s : SearchIndex) (filePath : String) (qtoks : List String) : Rat :=
  match lookupInfo s filePath with
  | none => 0
  | some _ =>
    let filename := lowerStr (basename filePath)
    qtoks.foldl (fun score t =>
      let score := if strContains filename t then score + 2 else score
      match lookupIndex s.index t with
      | some ps => if 0 < ps.length then score + 1 / (ps.length : Rat) else score
      | none => score) 0

/-- Search result dictionary assembled by `search` (the `indexed_time` field
is not modelled). -/
structure SearchResult where
  filePath : String
  filename : String
  fileType : String
  fileSizeMb : Rat
  preview : String
  relevance : Rat
  deriving DecidableEq

/-- Python's stable `list.sort(key=relevance, reverse=True)`: insertion sort
on the "greater-or-equal relevance" relation. -/
def sortByRelevanceDesc (l : List SearchResult) : List SearchResult :=
  l.insertionSort (fun a b => b.relevance ≤ a.relevance)

/-- `SearchIndex.search`: empty on a blank or tokenless query; otherwise
gather per-token matches, intersect, broaden with the OR set when the AND set
is smaller than `max_results // 2`, truncate to `max_results`, build result
records for known files and sort by relevance, descending. -/
def SearchIndex.search (s : SearchIndex) (query : String) (maxResults : Nat) :
    List SearchResult :=
  if stripWs query = "" then []
  else
    let qtoks := tokenize query
    if qtoks = [] then []
    else if qtoks.map (matchingFiles s.index) = [] then []
    else
      let limited := (searchResultFiles s.index qtoks maxResults).take maxResults
      let results := limited.filterMap (fun fp =>
        match lookupInfo s fp with
        | none => none
        | some rec =>
          some { filePath := fp, filename := basename fp, fileType := rec.info.fileType,
                 fileSizeMb := rec.info.fileSizeMb,
                 preview := highlightMatches rec.contentPreview qtoks,
                 relevance := calculateRelevance s fp qtoks })
      sortByRelevanceDesc results

/-! ### Lemmas about the inverted-index mutations (claim C1) -/

/-- After `remove_file`, the removed path is in no postings set. -/
theorem mem_removeFileIndex (p t : String) (ps : List String)
    (ix : List (String × List String)) (h : (t, ps) ∈ removeFileIndex p ix) : p ∉ ps := by
  induction ix with
  | nil => simp [removeFileIndex] at h
  | cons e0 rest ih =>
    obtain ⟨t', ps'⟩ := e0
    simp only [removeFileIndex] at h
    by_cases hp : p ∈ ps'
    · rw [if_pos hp] at h
      by_cases he : ps'.filter (fun q => q ≠ p) = []
      · rw [if_pos he] at h
        exact ih h
      · rw [if_neg he] at h
        rcases List.mem_cons.mp h with h1 | h1
        · simp only [Prod.mk.injEq] at h1
          obtain ⟨rfl, rfl⟩ := h1
          simp
        · exact ih h1
    · rw [if_neg hp] at h
      rcases List.mem_cons.mp h with h1 | h1
      · simp only [Prod.mk.injEq] at h1
        obtain ⟨rfl, rfl⟩ := h1
        exact hp
      · exact ih h1

/-- Characterization of postings membership through one `insertPosting`. -/
theorem exists_mem_insertPosting (tok p t : String) (ix : List (String × List String)) :
    (∃ ps, (t, ps) ∈ insertPosting tok p ix ∧ p ∈ ps) ↔
      (t = tok ∨ ∃ ps, (t, ps) ∈ ix ∧ p ∈ ps) := by
  induction ix with
  | nil =>
    simp only [insertPosting, List.mem_singleton, List.not_mem_nil, Prod.mk.injEq]
    constructor
    · rintro ⟨ps, ⟨rfl, rfl⟩, _⟩
      exact Or.inl rfl
    · rintro (rfl | ⟨ps, hfalse, _⟩)
      · exact ⟨[p], ⟨rfl, rfl⟩, List.mem_singleton_self p⟩
      · exact absurd hfalse (by simp)
  | cons e0 rest ih =>
    obtain ⟨t', ps'⟩ := e0
    by_cases ht : t' = tok
    · subst ht
      simp only [insertPosting, if_pos rfl]
      constructor
      · rintro ⟨ps, hmem, hp⟩
        rcases List.mem_cons.mp hmem with h1 | h1
        · simp only [Prod.mk.injEq] at h1
          exact Or.inl h1.1
        · exact Or.inr ⟨ps, List.mem_cons_of_mem _ h1, hp⟩
      · rintro (rfl | ⟨ps, hmem, hp⟩)
        · refine ⟨if p ∈ ps' then ps' else ps' ++ [p], List.mem_cons_self _ _, ?_⟩
          by_cases hp : p ∈ ps' <;> simp [hp]
        · rcases List.mem_cons.mp hmem with h1 | h1
          · simp only [Prod.mk.injEq] at h1
            obtain ⟨rfl, rfl⟩ := h1
            exact ⟨if p ∈ ps then ps else ps ++ [p], List.mem_cons_self _ _, by simp [hp]⟩
          · exact ⟨ps, List.mem_cons_of_mem _ h1, hp⟩
    · simp only [insertPosting, if_neg ht]
      constructor
      · rintro ⟨ps, hmem, hp⟩
        rcases List.mem_cons.mp hmem with h1 | h1
        · exact Or.inr ⟨ps, List.mem_cons.mpr (Or.inl h1), hp⟩
        · rcases ih.mp ⟨ps, h1, hp⟩ with h2 | ⟨ps2, hm2, hp2⟩
          · exact Or.inl h2
          · exact Or.inr ⟨ps2, List.mem_cons_of_mem _ hm2, hp2⟩
      · rintro (rfl | ⟨ps, hmem, hp⟩)
        · obtain ⟨ps2, hm2, hp2⟩ := ih.mpr (Or.inl rfl)
          exact ⟨ps2, List.mem_cons_of_mem _ hm2, hp2⟩
        · rcases List.mem_cons.mp hmem with h1 | h1
          · exact ⟨ps, List.mem_cons.mpr (Or.inl h1), hp⟩
          · obtain ⟨ps2, hm2, hp2⟩ := ih.mpr (Or.inr ⟨ps, h1, hp⟩)
            exact ⟨ps2, List.mem_cons_of_mem _ hm2, hp2⟩

/-- Characterization of postings membership after inserting a whole token
list for one path. -/
theorem exists_mem_foldl_insertPosting (toks : List String) (p t : String) :
    ∀ ix, (∃ ps, (t, ps) ∈ toks.foldl (fun ix tok => insertPosting tok p ix) ix ∧ p ∈ ps) ↔
      (t ∈ toks ∨ ∃ ps, (t, ps) ∈ ix ∧ p ∈ ps) := by
  induction toks with
  | nil => intro ix; simp
  | cons tok ts ih =>
    intro ix
    simp only [List.foldl_cons, List.mem_cons]
    rw [ih (insertPosting tok p ix), exists_mem_insertPosting]
    tauto

/-- Membership in `dedup` is membership in the original list. -/
theorem mem_dedup (t : String) (l : List String) : t ∈ dedup l ↔ t ∈ l := by
  induction l with
  | nil => simp [dedup]
  | cons a as ih =>
    simp only [dedup, List.mem_cons, List.mem_filter]
    by_cases h : t = a
    · simp [h]
    · simp [h, ih]

/-- After `add_file(p, c, info)`, the path `p` occurs in the postings set of a
token `t` exactly when `t` is a token of the file's basename-plus-content. -/
theorem addFile_postings_mem (s : SearchIndex) (p c : String) (i : FileInfo) (t : String) :
    (∃ ps, (t, ps) ∈ (s.addFile p c i).index ∧ p ∈ ps) ↔ t ∈ fileTokens p c := by
  show (∃ ps, (t, ps) ∈ (dedup (fileTokens p c)).foldl
      (fun ix tok => insertPosting tok p ix) (s.removeFile p).index ∧ p ∈ ps) ↔ _
  rw [exists_mem_foldl_insertPosting]
  constructor
  · rintro (h | ⟨ps, hmem, hp⟩)
    · exact (mem_dedup t _).mp h
    · exact absurd hp (mem_removeFileIndex p t ps s.index hmem)
  · intro h
    exact Or.inl ((mem_dedup t _).mpr h)

/-- No entry of the inverted index has an empty postings set. -/
def noEmptyPostings (s : SearchIndex) : Prop := ∀ e ∈ s.index, e.2 ≠ []

/-- `removeFileIndex` preserves the no-empty-postings invariant. -/
theorem removeFileIndex_noEmpty (p : String) (ix : List (String × List String))
    (h : ∀ e ∈ ix, e.2 ≠ []) : ∀ e ∈ removeFileIndex p ix, e.2 ≠ [] := by
  induction ix with
  | nil => simp [removeFileIndex]
  | cons e0 rest ih =>
    obtain ⟨t', ps'⟩ := e0
    intro e he
    simp only [removeFileIndex] at he
    by_cases hp : p ∈ ps'
    · rw [if_pos hp] at he
      by_cases hee : ps'.filter (fun q => q ≠ p) = []
      · rw [if_pos hee] at he
        exact ih (fun x hx => h x (List.mem_cons_of_mem _ hx)) e he
      · rw [if_neg hee] at he
        rcases List.mem_cons.mp he with h1 | h1
        · subst h1; exact hee
        · exact ih (fun x hx => h x (List.mem_cons_of_mem _ hx)) e h1
    · rw [if_neg hp] at he
      rcases List.mem_cons.mp he with h1 | h1
      · subst h1; exact h (t', ps') (List.mem_cons_self _ _)
      · exact ih (fun x hx => h x (List.mem_cons_of_mem _ hx)) e h1

/-- `insertPosting` preserves the no-empty-postings invariant. -/
theorem insertPosting_noEmpty (tok p : String) (ix : List (String × List String))
    (h : ∀ e ∈ ix, e.2 ≠ []) : ∀ e ∈ insertPosting tok p ix, e.2 ≠ [] := by
  induction ix with
  | nil =>
    intro e he
    simp only [insertPosting, List.mem_singleton] at he
    subst he; simp
  | cons e0 rest ih =>
    obtain ⟨t', ps'⟩ := e0
    intro e he
    simp only [insertPosting] at he
    by_cases ht : t' = tok
    · rw [if_pos ht] at he
      rcases List.mem_cons.mp he with h1 | h1
      · subst h1
        by_cases hp : p ∈ ps'
        · simpa [hp] using h (t', ps') (List.mem_cons_self _ _)
        · simp [hp]
      · exact h e (List.mem_cons_of_mem _ h1)
    · rw [if_neg ht] at he
      rcases List.mem_cons.mp he with h1 | h1
      · subst h1; exact h (t', ps') (List.mem_cons_self _ _)
      · exact ih (fun x hx => h x (List.mem_cons_of_mem _ hx)) e h1

/-- Folding `insertPosting` over a token list preserves the invariant. -/
theorem foldl_insertPosting_noEmpty (toks : List String) (p : String) :
    ∀ ix, (∀ e ∈ ix, e.2 ≠ []) →
      ∀ e ∈ toks.foldl (fun ix tok => insertPosting tok p ix) ix, e.2 ≠ [] := by
  induction toks with
  | nil => intro ix h; simpa using h
  | cons tok ts ih =>
    intro ix h
    simp only [List.foldl_cons]
    exact ih _ (insertPosting_noEmpty tok p ix h)

/-- `add_file` preserves the no-empty-postings invariant. -/
theorem addFile_noEmpty (s : SearchIndex) (p c : String) (i : FileInfo)
    (h : noEmptyPostings s) : noEmptyPostings (s.addFile p c i) := by
  intro e he
  exact foldl_insertPosting_noEmpty _ p _ (removeFileIndex_noEmpty p s.index h) e he

/-- `remove_file` preserves the no-empty-postings invariant. -/
theorem removeFile_noEmpty (s : SearchIndex) (p : String) (h : noEmptyPostings s) :
    noEmptyPostings (s.removeFile p) := by
  intro e he
  exact removeFileIndex_noEmpty p s.index h e he

/-- Every index state reachable by a sequence of operations from the fresh
index satisfies the no-empty-postings invariant. -/
theorem applyOps_noEmpty (ops : List IndexOp) : noEmptyPostings (applyOps ops) := by
  suffices H : ∀ (l : List IndexOp) (s : SearchIndex), noEmptyPostings s →
      noEmptyPostings (l.foldl applyOp s) by
    exact H ops SearchIndex.empty (by intro e he; simp [SearchIndex.empty] at he)
  intro l
  induction l with
  | nil => intro s h; simpa using h
  | cons op rest ih =>
    intro s h
    simp only [List.foldl_cons]
    cases op with
    | add p c i => exact ih _ (addFile_noEmpty s p c i h)
    | remove p => exact ih _ (removeFile_noEmpty s p h)

/-- C1: after `add_file(p, c2, info)` following an earlier `add_file(p, c1, info')`
for the same path, `p` occurs in a token's postings set exactly when the token
derives from the second content plus `p`'s filename (so no stale postings from
`c1` survive); after `remove_file(p)` no postings set contains `p`; and on
every state reachable by a sequence of operations, no token of the inverted
index maps to an empty postings set. -/
theorem searchIndex_postings_invariants :
    (∀ (s₀ : SearchIndex) (p c₁ c₂ : String) (i₁ i₂ : FileInfo) (t : String),
        (∃ ps, (t, ps) ∈ ((s₀.addFile p c₁ i₁).addFile p c₂ i₂).index ∧ p ∈ ps) ↔
          t ∈ fileTokens p c₂) ∧
    (∀ (s : SearchIndex) (p t : String) (ps : List String),
        (t, ps) ∈ (s.removeFile p).index → p ∉ ps) ∧
    (∀ (ops : List IndexOp) (e : String × List String), e ∈ (applyOps ops).index → e.2 ≠ []) :=
  ⟨fun s₀ p c₁ c₂ i₁ i₂ t => addFile_postings_mem (s₀.addFile p c₁ i₁) p c₂ i₂ t,
   fun s p t ps h => mem_removeFileIndex p t ps s.index h,
   fun ops e he => applyOps_noEmpty ops e he⟩

/-- Demonstration file info used by the concrete witness states. -/
def fiEx : FileInfo := ⟨"text", 1⟩

/-- Witness for C1: the theorem applied at concrete states, discharging the
membership hypotheses by evaluation. -/
theorem searchIndex_postings_invariants_witness :
    (∃ ps, ("ab", ps) ∈
        ((SearchIndex.empty.addFile "/x/ab.txt" "bye" fiEx).addFile "/x/ab.txt" "hello" fiEx).index ∧
        "/x/ab.txt" ∈ ps) ∧
    ("/b.txt" ∉ (["/a.txt"] : List String)) ∧
    ((("txt", ["/a.txt"]) : String × List String).2 ≠ []) := by
  refine ⟨?_, ?_, ?_⟩
  · exact (searchIndex_postings_invariants.1 SearchIndex.empty "/x/ab.txt"
      "bye" "hello" fiEx fiEx "ab").mpr (by decide)
  · exact searchIndex_postings_invariants.2.1
      (applyOps [.add "/a.txt" "hello" fiEx, .add "/b.txt" "hello" fiEx])
      "/b.txt" "hello" ["/a.txt"] (by decide)
  · exact searchIndex_postings_invariants.2.2 [.add "/a.txt" "hi hello" fiEx]
      ("txt", ["/a.txt"]) (by decide)

/-! ### Lemmas about the query path of `search` (claims C2, C3) -/

/-- Membership in the list-model set union. -/
theorem mem_listUnion (x : String) (a b : List String) :
    x ∈ listUnion a b ↔ x ∈ a ∨ x ∈ b := by
  unfold listUnion
  by_cases hx : x ∈ a
  · simp [hx]
  · simp [hx]

/-- Every list prefixes itself. -/
theorem charsPre_self (l : List Char) : charsPre l l = true := by
  induction l with
  | nil => rfl
  | cons c cs ih => simp [charsPre, ih]

/-- Every string starts with itself (so the exact-match branch of `search` is
subsumed by the prefix/substring branch). -/
theorem strStarts_self (t : String) : strStarts t t = true := charsPre_self t.data

/-- Dict lookup success yields an entry of the association list. -/
theorem lookupIndex_some_mem (ix : List (String × List String)) (t : String)
    (ps : List String) (h : lookupIndex ix t = some ps) : (t, ps) ∈ ix := by
  unfold lookupIndex at h
  cases hf : ix.find? (fun e => e.1 == t) with
  | none => rw [hf] at h; cases h
  | some e =>
    rw [hf] at h
    obtain ⟨e1, e2⟩ := e
    have hm := List.mem_of_find?_eq_some hf
    have hp := List.find?_some hf
    simp only [beq_iff_eq] at hp
    cases h
    subst hp
    simpa using hm

/-- Membership through the prefix/substring fold of `matchingFiles`. -/
theorem mem_foldl_matching (t f : String) (ix : List (String × List String)) :
    ∀ acc, f ∈ ix.foldl (fun acc e =>
        if strStarts e.1 t || strContains e.1 t then listUnion acc e.2 else acc) acc ↔
      f ∈ acc ∨ ∃ e ∈ ix, (strStarts e.1 t || strContains e.1 t) = true ∧ f ∈ e.2 := by
  induction ix with
  | nil => intro acc; simp
  | cons e0 rest ih =>
    intro acc
    simp only [List.foldl_cons]
    rw [ih]
    by_cases hc : (strStarts e0.1 t || strContains e0.1 t) = true
    · rw [if_pos hc, mem_listUnion]
      constructor
      · rintro ((h | h) | ⟨e, he, hp, hf⟩)
        · exact Or.inl h
        · exact Or.inr ⟨e0, List.mem_cons_self _ _, hc, h⟩
        · exact Or.inr ⟨e, List.mem_cons_of_mem _ he, hp, hf⟩
      · rintro (h | ⟨e, he, hp, hf⟩)
        · exact Or.inl (Or.inl h)
        · rcases List.mem_cons.mp he with rfl | he'
          · exact Or.inl (Or.inr hf)
          · exact Or.inr ⟨e, he', hp, hf⟩
    · rw [if_neg hc]
      constructor
      · rintro (h | ⟨e, he, hp, hf⟩)
        · exact Or.inl h
        · exact Or.inr ⟨e, List.mem_cons_of_mem _ he, hp, hf⟩
      · rintro (h | ⟨e, he, hp, hf⟩)
        · exact Or.inl h
        · rcases List.mem_cons.mp he with rfl | he'
          · exact absurd hp hc
          · exact Or.inr ⟨e, he', hp, hf⟩

/-- Characterization of the per-token match set: a file matches a query token
exactly when some indexed token that starts with or contains it (in
particular, equals it) has the file in its postings set. -/
theorem mem_matchingFiles (ix : List (String × List String)) (t f : String) :
    f ∈ matchingFiles ix t ↔
      ∃ e ∈ ix, (strStarts e.1 t || strContains e.1 t) = true ∧ f ∈ e.2 := by
  unfold matchingFiles
  rw [mem_foldl_matching]
  constructor
  · rintro (hex | h)
    · cases hlk : lookupIndex ix t with
      | none => rw [hlk] at hex; simp at hex
      | some ps =>
        rw [hlk] at hex
        rw [mem_listUnion] at hex
        rcases hex with h0 | hps
        · simp at h0
        · exact ⟨(t, ps), lookupIndex_some_mem ix t ps hlk, by simp [strStarts_self], hps⟩
    · exact h
  · intro h
    exact Or.inr h

/-- Membership through the OR fold of `search`. -/
theorem mem_foldl_listUnion (f : String) (ls : List (List String)) :
    ∀ acc, f ∈ ls.foldl listUnion acc ↔ f ∈ acc ∨ ∃ l ∈ ls, f ∈ l := by
  induction ls with
  | nil => intro acc; simp
  | cons l0 rest ih =>
    intro acc
    simp only [List.foldl_cons]
    rw [ih, mem_listUnion]
    constructor
    · rintro ((h | h) | ⟨l, hl, hf⟩)
      · exact Or.inl h
      · exact Or.inr ⟨l0, List.mem_cons_self _ _, h⟩
      · exact Or.inr ⟨l, List.mem_cons_of_mem _ hl, hf⟩
    · rintro (h | ⟨l, hl, hf⟩)
      · exact Or.inl (Or.inl h)
      · rcases List.mem_cons.mp hl with rfl | hl'
        · exact Or.inl (Or.inr hf)
        · exact Or.inr ⟨l, hl', hf⟩

/-- OR semantics: a file is in the OR set iff it matches some query token. -/
theorem mem_orFilesOf (ix : List (String × List String)) (qtoks : List String) (f : String) :
    f ∈ orFilesOf ix qtoks ↔ ∃ t ∈ qtoks, f ∈ matchingFiles ix t := by
  unfold orFilesOf
  rw [mem_foldl_listUnion]
  simp only [List.not_mem_nil, false_or, List.mem_map]
  constructor
  · rintro ⟨l, ⟨t, ht, rfl⟩, hf⟩
    exact ⟨t, ht, hf⟩
  · rintro ⟨t, ht, hf⟩
    exact ⟨matchingFiles ix t, ⟨t, ht, rfl⟩, hf⟩

/-- Membership through the AND fold of `search`. -/
theorem mem_foldl_listInter (f : String) (ls : List (List String)) :
    ∀ tr, f ∈ ls.foldl listInter tr ↔ f ∈ tr ∧ ∀ l ∈ ls, f ∈ l := by
  induction ls with
  | nil => intro tr; simp
  | cons l0 rest ih =>
    intro tr
    simp only [List.foldl_cons]
    rw [ih]
    unfold listInter
    constructor
    · rintro ⟨hf, hrest⟩
      have hf' := List.mem_filter.mp hf
      have hl0 : f ∈ l0 := by simpa using hf'.2
      refine ⟨hf'.1, ?_⟩
      intro l hl
      rcases List.mem_cons.mp hl with rfl | hl'
      · exact hl0
      · exact hrest l hl'
    · rintro ⟨hf, hall⟩
      refine ⟨List.mem_filter.mpr ⟨hf, by simpa using hall l0 (List.mem_cons_self _ _)⟩, ?_⟩
      intro l hl
      exact hall l (List.mem_cons_of_mem _ hl)

/-- AND semantics: for a nonempty token list, a file is in the AND set iff it
matches every query token. -/
theorem mem_andFilesOf (ix : List (String × List String)) (qtoks : List String)
    (h : qtoks ≠ []) (f : String) :
    f ∈ andFilesOf ix qtoks ↔ ∀ t ∈ qtoks, f ∈ matchingFiles ix t := by
  cases qtoks with
  | nil => exact absurd rfl h
  | cons t ts =>
    unfold andFilesOf
    simp only [List.map_cons]
    rw [mem_foldl_listInter]
    constructor
    · rintro ⟨htr, hrest⟩ t' ht'
      rcases List.mem_cons.mp ht' with rfl | ht''
      · exact htr
      · exact hrest _ (List.mem_map_of_mem _ ht'')
    · intro hall
      refine ⟨hall t (List.mem_cons_self _ _), ?_⟩
      intro l hl
      obtain ⟨t', ht', rfl⟩ := List.mem_map.mp hl
      exact hall t' (List.mem_cons_of_mem _ ht')

instance : IsTotal SearchResult (fun a b => b.relevance ≤ a.relevance) :=
  ⟨fun a b => le_total b.relevance a.relevance⟩

instance : IsTrans SearchResult (fun a b => b.relevance ≤ a.relevance) :=
  ⟨fun _ _ _ hab hbc => le_trans hbc hab⟩

/-- Result lists of `search` never exceed `max_results` entries. -/
theorem search_length_le_max (s : SearchIndex) (query : String) (m : Nat) :
    (s.search query m).length ≤ m := by
  simp only [SearchIndex.search]
  by_cases hs : stripWs query = ""
  · simp [hs]
  · rw [if_neg hs]
    by_cases hq : tokenize query = []
    · simp [hq]
    · rw [if_neg hq, if_neg (by simpa using hq)]
      unfold sortByRelevanceDesc
      rw [(List.perm_insertionSort _ _).length_eq]
      exact le_trans (List.length_filterMap_le _ _) (List.length_take_le _ _)

/-- Result lists of `search` are sorted by relevance, descending (stable sort
on the relevance key). -/
theorem search_sorted_desc (s : SearchIndex) (query : String) (m : Nat) :
    List.Pairwise (fun a b : SearchResult => b.relevance ≤ a.relevance)
      (s.search query m) := by
  simp only [SearchIndex.search]
  by_cases hs : stripWs query = ""
  · simp [hs]
  · rw [if_neg hs]
    by_cases hq : tokenize query = []
    · simp [hq]
    · rw [if_neg hq, if_neg (by simpa using hq)]
      exact List.sorted_insertionSort _ _

/-- Every result of `search` stems from a file that matched at least one query
token (OR soundness), with its postings reachable through `matchingFiles`. -/
theorem search_result_matches_some (s : SearchIndex) (query : String) (m : Nat)
    (r : SearchResult) (hr : r ∈ s.search query m) :
    ∃ t ∈ tokenize query, r.filePath ∈ matchingFiles s.index t := by
  simp only [SearchIndex.search] at hr
  by_cases hs : stripWs query = ""
  · rw [if_pos hs] at hr; cases hr
  · rw [if_neg hs] at hr
    by_cases hq : tokenize query = []
    · rw [if_pos hq] at hr; cases hr
    · rw [if_neg hq, if_neg (by simpa using hq)] at hr
      unfold sortByRelevanceDesc at hr
      rw [List.mem_insertionSort] at hr
      obtain ⟨fp, hfp, hsome⟩ := List.mem_filterMap.mp hr
      have hfp' : fp ∈ searchResultFiles s.index (tokenize query) m :=
        List.mem_of_mem_take hfp
      have hrfp : r.filePath = fp := by
        cases hlk : lookupInfo s fp with
        | none => rw [hlk] at hsome; cases hsome
        | some rec => rw [hlk] at hsome; cases hsome; rfl
      rw [hrfp]
      unfold searchResultFiles at hfp'
      by_cases hlt : (andFilesOf s.index (tokenize query)).length < m / 2
      · rw [if_pos hlt] at hfp'
        rcases List.mem_append.mp hfp' with h | h
        · obtain ⟨t, ht⟩ := List.exists_mem_of_ne_nil _ hq
          exact ⟨t, ht, (mem_andFilesOf _ _ hq fp).mp h t ht⟩
        · exact (mem_orFilesOf _ _ fp).mp (List.mem_filter.mp h).1
      · rw [if_neg hlt] at hfp'
        obtain ⟨t, ht⟩ := List.exists_mem_of_ne_nil _ hq
        exact ⟨t, ht, (mem_andFilesOf _ _ hq fp).mp hfp' t ht⟩

/-- When the AND set is not small enough to trigger broadening, every result
of `search` matches every query token. -/
theorem search_result_matches_all (s : SearchIndex) (query : String) (m : Nat)
    (hlt : ¬ (andFilesOf s.index (tokenize query)).length < m / 2)
    (r : SearchResult) (hr : r ∈ s.search query m) :
    ∀ t ∈ tokenize query, r.filePath ∈ matchingFiles s.index t := by
  simp only [SearchIndex.search] at hr
  by_cases hs : stripWs query = ""
  · rw [if_pos hs] at hr; cases hr
  · rw [if_neg hs] at hr
    by_cases hq : tokenize query = []
    · rw [if_pos hq] at hr; cases hr
    · rw [if_neg hq, if_neg (by simpa using hq)] at hr
      unfold sortByRelevanceDesc at hr
      rw [List.mem_insertionSort] at hr
      obtain ⟨fp, hfp, hsome⟩ := List.mem_filterMap.mp hr
      have hfp' : fp ∈ searchResultFiles s.index (tokenize query) m :=
        List.mem_of_mem_take hfp
      have hrfp : r.filePath = fp := by
        cases hlk : lookupInfo s fp with
        | none => rw [hlk] at hsome; cases hsome
        | some rec => rw [hlk] at hsome; cases hsome; rfl
      rw [hrfp]
      unfold searchResultFiles at hfp'
      rw [if_neg hlt] at hfp'
      exact (mem_andFilesOf _ _ hq fp).mp hfp'

/-- C2 (amended): every clause of the claim up to truncation holds — per-token
gathering by exact/prefix/substring reach, AND intersection, OR broadening
with AND files listed first in the candidate list when the AND set has fewer
than `max_results // 2` entries, truncation to `max_results` — but the final
list is then sorted by relevance score descending, so an AND file precedes an
OR-only file of equal or lower score, while an OR-only file with a strictly
higher score is returned ahead of it (see the counterexample theorem). -/
theorem search_and_or_broadening (s : SearchIndex) (query : String) (m : Nat) :
    (∀ t f, f ∈ matchingFiles s.index t ↔
        ∃ e ∈ s.index, (strStarts e.1 t || strContains e.1 t) = true ∧ f ∈ e.2) ∧
    (tokenize query ≠ [] →
      (∀ f, f ∈ andFilesOf s.index (tokenize query) ↔
          ∀ t ∈ tokenize query, f ∈ matchingFiles s.index t) ∧
      (∀ f, f ∈ orFilesOf s.index (tokenize query) ↔
          ∃ t ∈ tokenize query, f ∈ matchingFiles s.index t)) ∧
    ((andFilesOf s.index (tokenize query)).length < m / 2 →
      searchResultFiles s.index (tokenize query) m =
        andFilesOf s.index (tokenize query) ++
          (orFilesOf s.index (tokenize query)).filter
            (fun f => !((andFilesOf s.index (tokenize query)).contains f))) ∧
    (¬ (andFilesOf s.index (tokenize query)).length < m / 2 →
      searchResultFiles s.index (tokenize query) m =
        andFilesOf s.index (tokenize query)) ∧
    (s.search query m).length ≤ m ∧
    List.Pairwise (fun a b : SearchResult => b.relevance ≤ a.relevance) (s.search query m) ∧
    (∀ r ∈ s.search query m, ∃ t ∈ tokenize query, r.filePath ∈ matchingFiles s.index t) ∧
    (¬ (andFilesOf s.index (tokenize query)).length < m / 2 →
      ∀ r ∈ s.search query m, ∀ t ∈ tokenize query, r.filePath ∈ matchingFiles s.index t) :=
  ⟨fun t f => mem_matchingFiles s.index t f,
   fun hq => ⟨fun f => mem_andFilesOf s.index (tokenize query) hq f,
              fun f => mem_orFilesOf s.index (tokenize query) f⟩,
   fun hlt => by unfold searchResultFiles; rw [if_pos hlt],
   fun hlt => by unfold searchResultFiles; rw [if_neg hlt],
   search_length_le_max s query m,
   search_sorted_desc s query m,
   fun r hr => search_result_matches_some s query m r hr,
   fun hlt r hr => search_result_matches_all s query m hlt r hr⟩

/-- Concrete two-file index refuting the claim's final clause: `/f1.txt`
(content "apple th") matches both query tokens of "apple th", while
`/this.txt` (content "apple") is OR-only, yet its stop-word filename "this"
gives it the 2.0 filename bonus and a strictly higher relevance score. -/
def exIndexC2 : SearchIndex :=
  applyOps [.add "/f1.txt" "apple th" fiEx, .add "/this.txt" "apple" fiEx]

/-- Counterexample for C2 as stated: the OR-only fallback file `/this.txt` is
returned ahead of `/f1.txt`, the file matching all query tokens. -/
theorem search_or_only_outranks_and :
    ((exIndexC2.search "apple th" 50).map (fun r => r.filePath) =
      ["/this.txt", "/f1.txt"]) ∧
    (∀ t ∈ tokenize "apple th", "/f1.txt" ∈ matchingFiles exIndexC2.index t) ∧
    ("/this.txt" ∉ andFilesOf exIndexC2.index (tokenize "apple th")) ∧
    ("/this.txt" ∈ orFilesOf exIndexC2.index (tokenize "apple th")) ∧
    ((andFilesOf exIndexC2.index (tokenize "apple th")).length < 50 / 2) := by
  with_unfolding_all decide

/-- One-file index used by witnesses of the `search` theorems. -/
def exIndexW : SearchIndex := applyOps [.add "/w.txt" "apple" fiEx]

/-- Witness for the amended C2 theorem at concrete states, discharging the
nonempty-token, broadening and non-broadening hypotheses by evaluation. -/
theorem search_and_or_broadening_witness :
    (("/w.txt" ∈ andFilesOf exIndexW.index (tokenize "apple") ↔
        ∀ t ∈ tokenize "apple", "/w.txt" ∈ matchingFiles exIndexW.index t) ∧
      searchResultFiles exIndexW.index (tokenize "apple") 50 =
        andFilesOf exIndexW.index (tokenize "apple") ++
          (orFilesOf exIndexW.index (tokenize "apple")).filter
            (fun f => !((andFilesOf exIndexW.index (tokenize "apple")).contains f))) ∧
    searchResultFiles exIndexW.index (tokenize "apple") 2 =
      andFilesOf exIndexW.index (tokenize "apple") :=
  ⟨⟨((search_and_or_broadening exIndexW "apple" 50).2.1 (by decide)).1 "/w.txt",
    (search_and_or_broadening exIndexW "apple" 50).2.2.1 (by decide)⟩,
   (search_and_or_broadening exIndexW "apple" 2).2.2.2.1 (by decide)⟩

/-! ### Claim C3: the relevance formula -/

/-- Modelled from the claim's words (for comparison with the code): per query
token, 2.0 for a filename hit plus 1/len(postings) only when the token appears
in that file's own index entry. -/
def relevanceSpec (s : SearchIndex) (filePath : String) (qtoks : List String) : Rat :=
  match lookupInfo s filePath with
  | none => 0
  | some _ =>
    let filename := lowerStr (basename filePath)
    (qtoks.map (fun t =>
      (if strContains filename t then (2 : Rat) else 0) +
      (match lookupIndex s.index t with
       | some ps => if filePath ∈ ps then 1 / (ps.length : Rat) else 0
       | none => 0))).sum

/-- Two-file index refuting the claim's formula: `/f2.txt` (content "apple")
is not in the postings of "banana", yet `_calculate_relevance` still adds the
1/len("banana" postings) term for it. -/
def exIndexC3 : SearchIndex :=
  applyOps [.add "/f1.txt" "apple banana" fiEx, .add "/f2.txt" "apple" fiEx]

/-- Counterexample for C3 as stated: the relevance score computed for
`/f2.txt` is 3/2, while the claim's formula gives 1/2 (the "banana" rarity
term is added although "banana" is not in that file's index), and the search
result carries the computed 3/2. -/
theorem relevance_differs_from_claim :
    calculateRelevance exIndexC3 "/f2.txt" (tokenize "apple banana") = 3 / 2 ∧
    relevanceSpec exIndexC3 "/f2.txt" (tokenize "apple banana") = 1 / 2 ∧
    ((exIndexC3.search "apple banana" 50).map (fun r => (r.filePath, r.relevance)) =
      [("/f1.txt", 3 / 2), ("/f2.txt", 3 / 2)]) ∧
    ¬ (3 / 2 : Rat) = 1 / 2 := by
  with_unfolding_all decide

/-- Fold-to-sum evaluation of `_calculate_relevance`'s token loop. -/
theorem calculateRelevance_foldl_eq_sum (s : SearchIndex) (fname : String)
    (qtoks : List String) :
    ∀ a : Rat,
      qtoks.foldl (fun score t =>
        let score := if strContains fname t then score + 2 else score
        match lookupIndex s.index t with
        | some ps => if 0 < ps.length then score + 1 / (ps.length : Rat) else score
        | none => score) a =
      a + (qtoks.map (fun t =>
        (if strContains fname t then (2 : Rat) else 0) +
        (match lookupIndex s.index t with
         | some ps => if 0 < ps.length then 1 / (ps.length : Rat) else 0
         | none => 0))).sum := by
  induction qtoks with
  | nil => intro a; simp
  | cons t ts ih =>
    intro a
    simp only [List.foldl_cons, List.map_cons, List.sum_cons]
    rw [ih]
    by_cases hP : strContains fname t = true
    · cases hlk : lookupIndex s.index t with
      | none => simp only [hP, if_true, hlk]; ring
      | some ps =>
        by_cases hl : 0 < ps.length
        · simp only [hP, if_true, hlk, if_pos hl]; ring
        · simp only [hP, if_true, hlk, if_neg hl]; ring
    · cases hlk : lookupIndex s.index t with
      | none => simp only [if_neg hP, hlk]; ring
      | some ps =>
        by_cases hl : 0 < ps.length
        · simp only [if_neg hP, hlk, if_pos hl]; ring
        · simp only [if_neg hP, hlk, if_neg hl]; ring

/-- Relevance attached to each `search` result equals
`_calculate_relevance` of its file path and the query tokens. -/
theorem search_relevance_eq_calc (s : SearchIndex) (query : String) (m : Nat)
    (r : SearchResult) (hr : r ∈ s.search query m) :
    r.relevance = calculateRelevance s r.filePath (tokenize query) := by
  simp only [SearchIndex.search] at hr
  by_cases hs : stripWs query = ""
  · rw [if_pos hs] at hr; cases hr
  · rw [if_neg hs] at hr
    by_cases hq : tokenize query = []
    · rw [if_pos hq] at hr; cases hr
    · rw [if_neg hq, if_neg (by simpa using hq)] at hr
      unfold sortByRelevanceDesc at hr
      rw [List.mem_insertionSort] at hr
      obtain ⟨fp, hfp, hsome⟩ := List.mem_filterMap.mp hr
      cases hlk : lookupInfo s fp with
      | none => rw [hlk] at hsome; cases hsome
      | some rec => rw [hlk] at hsome; cases hsome; rfl

/-- C3 (amended): the relevance score computed for an indexed file equals the
sum over query tokens of (2.0 if the token appears in the lower-cased
filename) plus (1/len(postings) whenever the token is a key of the inverted
index at all — regardless of whether that file is in the token's postings);
each search result carries exactly this score, and results are sorted by it
in descending order. -/
theorem relevance_formula_and_sort (s : SearchIndex) (filePath query : String) (m : Nat)
    (qtoks : List String) :
    ((lookupInfo s filePath).isSome →
      calculateRelevance s filePath qtoks =
        (qtoks.map (fun t =>
          (if strContains (lowerStr (basename filePath)) t then (2 : Rat) else 0) +
          (match lookupIndex s.index t with
           | some ps => if 0 < ps.length then 1 / (ps.length : Rat) else 0
           | none => 0))).sum) ∧
    (∀ r ∈ s.search query m, r.relevance = calculateRelevance s r.filePath (tokenize query)) ∧
    List.Pairwise (fun a b : SearchResult => b.relevance ≤ a.relevance) (s.search query m) := by
  refine ⟨?_, fun r hr => search_relevance_eq_calc s query m r hr,
    search_sorted_desc s query m⟩
  intro hsome
  unfold calculateRelevance
  cases hlk : lookupInfo s filePath with
  | none => rw [hlk] at hsome; cases hsome
  | some rec =>
    rw [calculateRelevance_foldl_eq_sum s (lowerStr (basename filePath)) qtoks 0]
    rw [zero_add]

/-- Witness for the amended C3 theorem: the formula and the per-result score
at a concrete one-file index, hypotheses discharged by evaluation. -/
theorem relevance_formula_and_sort_witness :
    (calculateRelevance exIndexW "/w.txt" (tokenize "apple") =
      ((tokenize "apple").map (fun t =>
        (if strContains (lowerStr (basename "/w.txt")) t then (2 : Rat) else 0) +
        (match lookupIndex exIndexW.index t with
         | some ps => if 0 < ps.length then 1 / (ps.length : Rat) else 0
         | none => 0))).sum) ∧
    (⟨"/w.txt", "w.txt", "text", 1, "**apple**", 1⟩ : SearchResult).relevance =
      calculateRelevance exIndexW "/w.txt" (tokenize "apple") :=
  ⟨(relevance_formula_and_sort exIndexW "/w.txt" "apple" 50 (tokenize "apple")).1
      (by with_unfolding_all decide),
   (relevance_formula_and_sort exIndexW "/w.txt" "apple" 50 (tokenize "apple")).2.1
      ⟨"/w.txt", "w.txt", "text", 1, "**apple**", 1⟩ (by with_unfolding_all decide)⟩

/-! ### Conversion-cache cleanup (claim C4)

Model of `_cleanup_cache`, identical in `AsposePowerPointConverter`
(`src/utils/aspose_powerpoint_converter.py`) and `ComPowerPointConverter`
(`src/utils/com_powerpoint_converter.py`). -/

/-- Cache entry on disk: file name, byte size, modification time in integer
seconds (Python compares `datetime`s, which order identically). -/
structure CacheEntry where
  name : String
  size : Nat
  mtime : Int
  deriving DecidableEq

/-- `self.cache_max_size = 1024 * 1024 * 1024` (1 GiB). -/
def cacheMaxSize : Nat := 1024 * 1024 * 1024

/-- `self.cache_max_age = timedelta(days=7)`, in seconds. -/
def cacheMaxAgeSecs : Int := 7 * 86400

/-- Eviction target `self.cache_max_size * 0.8`. The float product lies
strictly between the same consecutive integers as the exact rational, so the
integer-vs-float comparison of the code is modelled faithfully by `Rat`. -/
def cacheSizeTarget : Rat := (cacheMaxSize : Rat) * (4 / 5)

/-- Total byte size of a list of cache entries. -/
def sumSizes (l : List CacheEntry) : Nat := (l.map (fun e => e.size)).sum

/-- Stable ascending sort by modification time
(`files_with_time.sort(key=lambda x: x[2])`). -/
def sortByMtime (l : List CacheEntry) : List CacheEntry :=
  l.insertionSort (fun a b => a.mtime ≤ b.mtime)

instance : IsTotal CacheEntry (fun a b => a.mtime ≤ b.mtime) :=
  ⟨fun a b => le_total a.mtime b.mtime⟩

instance : IsTrans CacheEntry (fun a b => a.mtime ≤ b.mtime) :=
  ⟨fun _ _ _ hab hbc => le_trans hab hbc⟩

/-- Oldest-first deletion loop of `_cleanup_cache`: walk the sorted list,
stopping as soon as the running total is at or below the target; everything
before the stopping point is unlinked. Returns the survivors. -/
def evictOldest : List CacheEntry → Nat → List CacheEntry
  | [], _ => []
  | e :: rest, total =>
    if (total : Rat) ≤ cacheSizeTarget then e :: rest
    else evictOldest rest (total - e.size)

/-- Size phase of `_cleanup_cache`: evict oldest-first only when the total
cache size exceeds 1 GiB. -/
def cleanupSizePhase (entries : List CacheEntry) : List CacheEntry :=
  if cacheMaxSize < sumSizes entries then
    evictOldest (sortByMtime entries) (sumSizes entries)
  else entries

/-- `_cleanup_cache`: the size phase, then the independent age phase deleting
every surviving entry older than 7 days (deleted files fail the `exists()`
guard, so the age loop only ever touches size-phase survivors). -/
def cleanupCache (entries : List CacheEntry) (now : Int) : List CacheEntry :=
  (cleanupSizePhase entries).filter (fun e => !decide (e.mtime < now - cacheMaxAgeSecs))

/-- The eviction loop, started at the list's total size, deletes precisely the
shortest prefix whose removal brings the total to at or below the target. -/
theorem evictOldest_spec (l : List CacheEntry) :
    ∃ k, evictOldest l (sumSizes l) = l.drop k ∧
      (sumSizes (l.drop k) : Rat) ≤ cacheSizeTarget ∧
      ∀ j < k, cacheSizeTarget < (sumSizes (l.drop j) : Rat) := by
  induction l with
  | nil =>
    refine ⟨0, rfl, ?_, fun j hj => absurd hj (Nat.not_lt_zero j)⟩
    norm_num [sumSizes, cacheSizeTarget, cacheMaxSize]
  | cons e rest ih =>
    by_cases h : ((sumSizes (e :: rest) : Rat) ≤ cacheSizeTarget)
    · exact ⟨0, by rw [evictOldest, if_pos h, List.drop_zero], by simpa using h,
        fun j hj => absurd hj (Nat.not_lt_zero j)⟩
    · obtain ⟨k, hk, hle, hmin⟩ := ih
      have hsum : sumSizes (e :: rest) - e.size = sumSizes rest := by
        simp [sumSizes]
      refine ⟨k + 1, ?_, ?_, ?_⟩
      · rw [evictOldest, if_neg h, hsum, List.drop_succ_cons]
        exact hk
      · rw [List.drop_succ_cons]
        exact hle
      · intro j hj
        cases j with
        | zero =>
          simpa using lt_of_not_le h
        | succ j' =>
          rw [List.drop_succ_cons]
          exact hmin j' (by omega)

/-- C4: whenever the cleanup routine runs on a cache whose total size exceeds
1 GiB, the size phase deletes a prefix of the mtime-ascending order — so
strictly oldest-first — exactly until the total is at or below 80 % of the
1 GiB limit (shortest such prefix); without size pressure it deletes nothing;
and, independently, the age phase then deletes exactly the entries older than
7 days. -/
theorem cleanupCache_spec (entries : List CacheEntry) (now : Int) :
    ((sortByMtime entries).Pairwise (fun a b => a.mtime ≤ b.mtime) ∧
      (sortByMtime entries).Perm entries) ∧
    (cacheMaxSize < sumSizes entries →
      ∃ k, cleanupSizePhase entries = (sortByMtime entries).drop k ∧
        (sumSizes ((sortByMtime entries).drop k) : Rat) ≤ cacheSizeTarget ∧
        ∀ j < k, cacheSizeTarget < (sumSizes ((sortByMtime entries).drop j) : Rat)) ∧
    (cacheMaxSize < sumSizes entries →
      ∀ d ∈ entries, d ∉ cleanupSizePhase entries →
        ∀ s' ∈ cleanupSizePhase entries, d.mtime ≤ s'.mtime) ∧
    (¬ cacheMaxSize < sumSizes entries → cleanupSizePhase entries = entries) ∧
    (∀ e, e ∈ cleanupCache entries now ↔
      e ∈ cleanupSizePhase entries ∧ ¬ (e.mtime < now - cacheMaxAgeSecs)) := by
  have hsumperm : sumSizes (sortByMtime entries) = sumSizes entries := by
    unfold sumSizes
    exact ((List.perm_insertionSort _ _).map _).sum_eq
  have hsizephase : cacheMaxSize < sumSizes entries →
      ∃ k, cleanupSizePhase entries = (sortByMtime entries).drop k ∧
        (sumSizes ((sortByMtime entries).drop k) : Rat) ≤ cacheSizeTarget ∧
        ∀ j < k, cacheSizeTarget < (sumSizes ((sortByMtime entries).drop j) : Rat) := by
    intro h
    obtain ⟨k, hk, hle, hmin⟩ := evictOldest_spec (sortByMtime entries)
    refine ⟨k, ?_, hle, hmin⟩
    unfold cleanupSizePhase
    rw [if_pos h, ← hsumperm]
    exact hk
  refine ⟨⟨List.sorted_insertionSort _ _, List.perm_insertionSort _ _⟩,
    hsizephase, ?_, ?_, ?_⟩
  · intro h d hd hnd s' hs'
    obtain ⟨k, hk, _, _⟩ := hsizephase h
    rw [hk] at hnd hs'
    have hd' : d ∈ sortByMtime entries := (List.perm_insertionSort _ _).mem_iff.mpr hd
    have hsorted : (sortByMtime entries).Pairwise (fun a b => a.mtime ≤ b.mtime) :=
      List.sorted_insertionSort _ _
    rw [← List.take_append_drop k (sortByMtime entries)] at hd' hsorted
    rcases List.mem_append.mp hd' with htake | hdrop
    · exact (List.pairwise_append.mp hsorted).2.2 d htake s' hs'
    · exact absurd hdrop hnd
  · intro h
    unfold cleanupSizePhase
    rw [if_neg h]
  · intro e
    unfold cleanupCache
    rw [List.mem_filter]
    simp

/-- Concrete over-limit cache: 1 GiB + 512 MiB across two entries. -/
def exCacheEntries : List CacheEntry :=
  [⟨"old.pdf", 1073741824, 0⟩, ⟨"new.pdf", 536870912, 10⟩]

/-- Concrete under-limit cache. -/
def exCacheSmall : List CacheEntry := [⟨"tiny.pdf", 100, 0⟩]

/-- Witness for C4: the cleanup theorem applied at a concrete over-limit cache
(oldest entry evicted, total back under 80 %), a concrete under-limit cache
(size phase untouched), and a concrete age query. -/
theorem cleanupCache_spec_witness :
    (∃ k, cleanupSizePhase exCacheEntries = (sortByMtime exCacheEntries).drop k ∧
      (sumSizes ((sortByMtime exCacheEntries).drop k) : Rat) ≤ cacheSizeTarget ∧
      ∀ j < k, cacheSizeTarget < (sumSizes ((sortByMtime exCacheEntries).drop j) : Rat)) ∧
    cleanupSizePhase exCacheSmall = exCacheSmall ∧
    ((⟨"new.pdf", 536870912, 10⟩ : CacheEntry) ∈ cleanupCache exCacheEntries 700000 ↔
      (⟨"new.pdf", 536870912, 10⟩ : CacheEntry) ∈ cleanupSizePhase exCacheEntries ∧
      ¬ ((10 : Int) < 700000 - cacheMaxAgeSecs)) :=
  ⟨(cleanupCache_spec exCacheEntries 700000).2.1 (by with_unfolding_all decide),
   (cleanupCache_spec exCacheSmall 700000).2.2.2.1 (by with_unfolding_all decide),
   (cleanupCache_spec exCacheEntries 700000).2.2.2.2 ⟨"new.pdf", 536870912, 10⟩⟩

/-! ### PowerPoint → PDF conversion caching (claim C5) -/

/-- Cache directory path (stands for the converter's temp-dir cache folder). -/
def cacheDir : String := "CACHE"

/-- `_get_cache_key`: derived injectively from the absolute path and the
modification time. Python feeds `abs_path + "_" + mtime` through SHA-1; the
hash is modelled by its preimage string, which preserves the property used
here — an unchanged file maps to the same key. -/
def getCacheKey (absPath : String) (mtime : Int) : String :=
  absPath ++ "_" ++ toString mtime

/-- File name of `_get_cached_pdf_path` inside the cache directory. -/
def cachedPdfName (absPath : String) (mtime : Int) : String :=
  getCacheKey absPath mtime ++ ".pdf"

/-- Outcome of one run of the underlying conversion engine: `success size`
(the engine wrote a PDF of that byte size; the code treats size 0 as a failed
conversion but leaves the file), or `failure` (the engine raised and the
handler deleted any partial output). -/
inductive ConvOutcome
  | success (size : Nat)
  | failure
  deriving DecidableEq

/-- `AsposePowerPointConverter.convert_to_pdf`: availability and source
existence guards, cache-hit check, opportunistic cache cleanup, then the
conversion. Returns the result path, the cache contents afterwards, and
whether the conversion engine was invoked. -/
def convertToPdf (available srcExists : Bool) (absPath : String) (srcMtime : Int)
    (outcome : ConvOutcome) (cache : List CacheEntry) (now : Int) :
    Option String × List CacheEntry × Bool :=
  if available = false then (none, cache, false)
  else if srcExists = false then (none, cache, false)
  else
    let name := cachedPdfName absPath srcMtime
    if (cache.map (fun e => e.name)).contains name then
      (some (cacheDir ++ "/" ++ name), cache, false)
    else
      let cleaned := cleanupCache cache now
      match outcome with
      | .success sz =>
        if 0 < sz then
          (some (cacheDir ++ "/" ++ name), cleaned ++ [⟨name, sz, now⟩], true)
        else (none, cleaned ++ [⟨name, sz, now⟩], true)
      | .failure => (none, cleaned, true)

/-- C5: when a call to `convert_to_pdf` succeeds, a second call for the same
path and the same modification time — i.e. the file was not modified in
between — returns the identical cached path, leaves the cache untouched, and
does not invoke the conversion engine, whatever the engine would have done
and whenever it runs. -/
theorem convertToPdf_cache_hit_stable (available srcExists : Bool) (absPath : String)
    (srcMtime : Int) (outcome outcome' : ConvOutcome) (cache cache' : List CacheEntry)
    (now now' : Int) (ret : String) (worked : Bool)
    (h : convertToPdf available srcExists absPath srcMtime outcome cache now =
      (some ret, cache', worked)) :
    convertToPdf available srcExists absPath srcMtime outcome' cache' now' =
      (some ret, cache', false) := by
  unfold convertToPdf at h ⊢
  by_cases hav : available = false
  · rw [if_pos hav] at h
    simp at h
  · rw [if_neg hav] at h
    rw [if_neg hav]
    by_cases hex : srcExists = false
    · rw [if_pos hex] at h
      simp at h
    · rw [if_neg hex] at h
      rw [if_neg hex]
      by_cases hc : ((cache.map (fun e => e.name)).contains
          (cachedPdfName absPath srcMtime)) = true
      · rw [if_pos hc] at h
        simp only [Prod.mk.injEq, Option.some.injEq] at h
        obtain ⟨h1, h2, _⟩ := h
        subst h2
        rw [if_pos hc, h1]
      · rw [if_neg hc] at h
        cases outcome with
        | success sz =>
          by_cases hsz : 0 < sz
          · simp only [if_pos hsz] at h
            simp only [Prod.mk.injEq, Option.some.injEq] at h
            obtain ⟨h1, h2, _⟩ := h
            have hc' : ((cache'.map (fun e => e.name)).contains
                (cachedPdfName absPath srcMtime)) = true := by
              rw [← h2]
              simp
            rw [if_pos hc', h1]
          · simp only [if_neg hsz] at h
            simp at h
        | failure =>
          simp at h

/-- Witness for C5: a concrete successful conversion followed by a cache hit
that returns the same path without invoking the engine. -/
theorem convertToPdf_cache_hit_stable_witness :
    convertToPdf true true "/deck.pptx" 5 .failure
      [⟨"/deck.pptx_5.pdf", 100, 0⟩] 7 =
      (some "CACHE//deck.pptx_5.pdf", [⟨"/deck.pptx_5.pdf", 100, 0⟩], false) :=
  convertToPdf_cache_hit_stable true true "/deck.pptx" 5 (.success 100) .failure
    [] [⟨"/deck.pptx_5.pdf", 100, 0⟩] 0 7 "CACHE//deck.pptx_5.pdf" true
    (by with_unfolding_all decide)

/-! ### PDF handler (`src/utils/pdf_handler.py`, claims C6, C7) -/

/-- One page of an opened PDF document: extracted text and page rectangle. -/
structure PdfPage where
  text : String
  width : Rat
  height : Rat
  deriving DecidableEq

/-- An opened PDF document is its list of pages; `fitz.open` raising (corrupt
or missing file) is modelled by `none` at the call sites. -/
abbrev PdfDoc := List PdfPage

/-- Rendered bitmap of a page (dimensions scaled by the zoom matrix). -/
structure PdfImage where
  width : Rat
  height : Rat
  deriving DecidableEq

/-- `PdfHandler.render_page_to_image`: `none` when the document cannot be
opened (the broad `except` returns `None`) or when the page number is out of
range (`page_num >= len(doc) or page_num < 0`); otherwise the page bitmap. -/
def renderPageToImage (doc? : Option PdfDoc) (pageNum : Int) (zoom : Rat) :
    Option PdfImage :=
  match doc? with
  | none => none
  | some doc =>
    if (doc.length : Int) ≤ pageNum ∨ pageNum < 0 then none
    else
      match doc.get? pageNum.toNat with
      | none => none
      | some page => some ⟨page.width * zoom, page.height * zoom⟩

/-- Result dictionary of `get_page_preview_info`: either a dictionary with an
`error` key, or the page info dictionary. -/
inductive PreviewInfoResult
  | error (msg : String)
  | ok (pageNumber : Int) (width height : Rat) (textPreview : String) (totalPages : Nat)
  deriving DecidableEq

/-- `PdfHandler.get_page_preview_info`: an error entry when the document
cannot be opened or the page number is out of range; otherwise the 1-based
page number, the page rectangle, a 100-character text preview
(ellipsis-suffixed when truncated, `[텍스트 없음]` when blank) and the page
count. -/
def getPagePreviewInfo (doc? : Option PdfDoc) (pageNum : Int) : PreviewInfoResult :=
  match doc? with
  | none => .error "페이지 정보 오류"
  | some doc =>
    if (doc.length : Int) ≤ pageNum ∨ pageNum < 0 then .error "유효하지 않은 페이지 번호"
    else
      match doc.get? pageNum.toNat with
      | none => .error "페이지 정보 오류"
      | some page =>
        let textPreview := takeStr 100 page.text ++
          (if 100 < page.text.data.length then "..." else "")
        .ok (pageNum + 1) page.width page.height
          (if stripWs textPreview = "" then "[텍스트 없음]" else stripWs textPreview)
          doc.length

/-- C6: for every openable PDF document and every out-of-range page number
(negative or at least the page count), `render_page_to_image` returns an
absent result and `get_page_preview_info` returns the error-tagged
dictionary; both are total functions, so neither raises past its boundary. -/
theorem pdf_page_range_guard (doc : PdfDoc) (pageNum : Int) (zoom : Rat)
    (h : pageNum < 0 ∨ (doc.length : Int) ≤ pageNum) :
    renderPageToImage (some doc) pageNum zoom = none ∧
    getPagePreviewInfo (some doc) pageNum = .error "유효하지 않은 페이지 번호" := by
  have h' : (doc.length : Int) ≤ pageNum ∨ pageNum < 0 := h.symm
  constructor
  · simp only [renderPageToImage]
    rw [if_pos h']
  · simp only [getPagePreviewInfo]
    rw [if_pos h']

/-- Witness for C6 on a concrete one-page document and page number 1. -/
theorem pdf_page_range_guard_witness :
    renderPageToImage (some [⟨"hello", 612, 792⟩]) 1 1 = none ∧
    getPagePreviewInfo (some [⟨"hello", 612, 792⟩]) 1 = .error "유효하지 않은 페이지 번호" :=
  pdf_page_range_guard [⟨"hello", 612, 792⟩] 1 1 (by decide)

/-- `PdfHandler.extract_text`. `maxPages` mirrors the Python default `None`
(and a passed 0 is falsy in `if max_pages:`, so it is ignored); `errMsg`
stands for the exception text when opening fails. The page headers end — as
written in the source — with the two-character sequence backslash `n`, and
pages are joined by that sequence doubled: lines 115/117 of
`src/utils/pdf_handler.py` contain `\\n` inside the f-string and the join
separator, unlike the sibling `extract_text` of
`aspose_powerpoint_converter.py`, which uses real newlines for the same
header layout. -/
def extractText (doc? : Option PdfDoc) (maxPages : Option Int) (errMsg : String) : String :=
  match doc? with
  | none => "텍스트 추출 오류: " ++ errMsg
  | some doc =>
    let pageCount : Int :=
      match maxPages with
      | some m => if m ≠ 0 then min (doc.length : Int) m else (doc.length : Int)
      | none => (doc.length : Int)
    let parts := (List.range pageCount.toNat).filterMap (fun i =>
      match doc.get? i with
      | some page =>
        if stripWs page.text ≠ "" then
          some ("=== 페이지 " ++ toString (i + 1) ++ " ===\\n" ++ page.text)
        else none
      | none => none)
    joinSep "\\n\\n" parts

/-- C7 (code bug): on a two-page document, `extract_text` produces the page
headers but separates header from text and page from page with the literal
two-character sequence backslash-`n` — the output contains no newline
character at all, so pages are not separated by blank lines as the spec
states; the `max_pages` bound and the fixed error prefix on failure do hold. -/
theorem extractText_literal_backslash_n :
    extractText (some [⟨"alpha", 612, 792⟩, ⟨"beta", 612, 792⟩]) none "" =
      "=== 페이지 1 ===\\nalpha\\n\\n=== 페이지 2 ===\\nbeta" ∧
    '\n' ∉ (extractText (some [⟨"alpha", 612, 792⟩, ⟨"beta", 612, 792⟩]) none "").data ∧
    extractText (some [⟨"alpha", 612, 792⟩, ⟨"beta", 612, 792⟩]) (some 1) "" =
      "=== 페이지 1 ===\\nalpha" ∧
    strStarts (extractText none none "boom") "텍스트 추출 오류: " = true := by
  decide

/-! ### Console login (`src/main.py`, claim C8) -/

/-- Demo account table printed by `console_login` at startup. -/
def demoAccounts : List (String × String) :=
  [("admin", "admin123"), ("user1", "password1"),
   ("user2", "password2"), ("user3", "password3")]

/-- Modelled from the spec: `AuthenticationManager.authenticate` — its
defining source (`core/auth.py`) is not among the examined files. Per spec
§4.2 it validates the pair against the fixed account table and rejects
expired regular accounts; expiry is abstracted as the set of currently
expired usernames. -/
def authenticate (expired : List String) (u p : String) : Bool :=
  demoAccounts.contains (u, p) && !(expired.contains u)

/-- One credential pair fails an attempt: a stripped field is blank (the loop
warns and `continue`s) or authentication rejects the stripped pair. -/
def failsAttempt (expired : List String) (pair : String × String) : Prop :=
  stripWs pair.1 = "" ∨ stripWs pair.2 = "" ∨
    authenticate expired (stripWs pair.1) (stripWs pair.2) = false

instance (expired : List String) (pair : String × String) :
    Decidable (failsAttempt expired pair) := by
  unfold failsAttempt
  infer_instance

/-- Attempt loop of `console_login` (`for attempt in range(max_attempts)`):
`n` prompts remain, `used` prompts were consumed; `inp k` is the
(username, password) pair typed at prompt `k`. Blank input prints a warning
and `continue`s — which still advances the loop. Returns the success flag
and the number of prompts consumed. -/
def consoleLoginAux (expired : List String) (inp : Nat → String × String) :
    Nat → Nat → Bool × Nat
  | 0, used => (false, used)
  | n + 1, used =>
    let u := stripWs (inp used).1
    let p := stripWs (inp used).2
    if u = "" ∨ p = "" then consoleLoginAux expired inp n (used + 1)
    else if authenticate expired u p then (true, used + 1)
    else consoleLoginAux expired inp n (used + 1)

/-- `console_login` with its `max_attempts = 3`. -/
def consoleLogin (expired : List String) (inp : Nat → String × String) : Bool × Nat :=
  consoleLoginAux expired inp 3 0

/-- Exit path of `main`: `sys.exit(1)` when `console_login` returns failure. -/
def loginExitCode (expired : List String) (inp : Nat → String × String) : Nat :=
  if (consoleLogin expired inp).1 then 0 else 1

/-- The attempt loop consumes at most as many prompts as it has attempts. -/
theorem consoleLoginAux_used_le (expired : List String) (inp : Nat → String × String) :
    ∀ n used, (consoleLoginAux expired inp n used).2 ≤ used + n := by
  intro n
  induction n with
  | zero => intro used; simp [consoleLoginAux]
  | succ n ih =>
    intro used
    simp only [consoleLoginAux]
    by_cases hb : stripWs (inp used).1 = "" ∨ stripWs (inp used).2 = ""
    · rw [if_pos hb]
      have := ih (used + 1)
      omega
    · rw [if_neg hb]
      by_cases ha : authenticate expired (stripWs (inp used).1) (stripWs (inp used).2) = true
      · rw [if_pos ha]
        omega
      · rw [if_neg ha]
        have := ih (used + 1)
        omega

/-- The attempt loop reads only the prompts it consumes: streams agreeing on
the first `n` prompts (from `used`) produce identical outcomes. -/
theorem consoleLoginAux_local (expired : List String) (inp inp' : Nat → String × String) :
    ∀ n used, (∀ k, used ≤ k → k < used + n → inp k = inp' k) →
      consoleLoginAux expired inp n used = consoleLoginAux expired inp' n used := by
  intro n
  induction n with
  | zero => intro used _; rfl
  | succ n ih =>
    intro used hk
    have h0 : inp used = inp' used := hk used (le_refl _) (by omega)
    have hrest : ∀ k, used + 1 ≤ k → k < used + 1 + n → inp k = inp' k :=
      fun k h1 h2 => hk k (by omega) (by omega)
    simp only [consoleLoginAux, h0]
    by_cases hb : stripWs (inp' used).1 = "" ∨ stripWs (inp' used).2 = ""
    · rw [if_pos hb, if_pos hb]
      exact ih (used + 1) hrest
    · rw [if_neg hb, if_neg hb]
      by_cases ha : authenticate expired (stripWs (inp' used).1) (stripWs (inp' used).2) = true
      · rw [if_pos ha, if_pos ha]
      · rw [if_neg ha, if_neg ha]
        exact ih (used + 1) hrest

/-- When every remaining prompt gets a blank or wrong pair, the loop fails
after consuming exactly its remaining attempts. -/
theorem consoleLoginAux_all_fail (expired : List String) (inp : Nat → String × String) :
    ∀ n used, (∀ k, used ≤ k → k < used + n → failsAttempt expired (inp k)) →
      consoleLoginAux expired inp n used = (false, used + n) := by
  intro n
  induction n with
  | zero => intro used _; simp [consoleLoginAux]
  | succ n ih =>
    intro used hf
    have h0 := hf used (le_refl _) (by omega)
    have hrest : ∀ k, used + 1 ≤ k → k < used + 1 + n → failsAttempt expired (inp k) :=
      fun k h1 h2 => hf k (by omega) (by omega)
    have hrec : consoleLoginAux expired inp n (used + 1) = (false, used + (n + 1)) := by
      rw [ih (used + 1) hrest]
      congr 1
      omega
    simp only [consoleLoginAux]
    by_cases hb : stripWs (inp used).1 = "" ∨ stripWs (inp used).2 = ""
    · rw [if_pos hb]
      exact hrec
    · rw [if_neg hb]
      have ha : authenticate expired (stripWs (inp used).1) (stripWs (inp used).2) = false := by
        rcases h0 with h | h | h
        · exact absurd (Or.inl h) hb
        · exact absurd (Or.inr h) hb
        · exact h
      rw [if_neg (by simp [ha])]
      exact hrec

/-- A nonblank pair that authenticates, arriving after `j` failed prompts,
makes the loop succeed immediately at prompt `used + j`. -/
theorem consoleLoginAux_succeeds_at (expired : List String) (inp : Nat → String × String) :
    ∀ n j used, j < n →
      (∀ k, used ≤ k → k < used + j → failsAttempt expired (inp k)) →
      ¬ (stripWs (inp (used + j)).1 = "" ∨ stripWs (inp (used + j)).2 = "") →
      authenticate expired (stripWs (inp (used + j)).1) (stripWs (inp (used + j)).2) = true →
      consoleLoginAux expired inp n used = (true, used + j + 1) := by
  intro n
  induction n with
  | zero => intro j used hj; omega
  | succ n ih =>
    intro j used hj hf hb ha
    cases j with
    | zero =>
      simp only [Nat.add_zero] at hb ha
      simp only [consoleLoginAux]
      rw [if_neg hb, if_pos ha]
    | succ j' =>
      have h0 := hf used (le_refl _) (by omega)
      have hrest : ∀ k, used + 1 ≤ k → k < used + 1 + j' → failsAttempt expired (inp k) :=
        fun k h1 h2 => hf k (by omega) (by omega)
      have heq : used + 1 + j' = used + (j' + 1) := by omega
      have hrec : consoleLoginAux expired inp n (used + 1) = (true, used + (j' + 1) + 1) := by
        rw [ih j' (used + 1) (by omega) hrest (by rw [heq]; exact hb) (by rw [heq]; exact ha)]
        congr 2
      simp only [consoleLoginAux]
      by_cases hb0 : stripWs (inp used).1 = "" ∨ stripWs (inp used).2 = ""
      · rw [if_pos hb0]
        exact hrec
      · rw [if_neg hb0]
        have ha0 : authenticate expired (stripWs (inp used).1) (stripWs (inp used).2) = false := by
          rcases h0 with h | h | h
          · exact absurd (Or.inl h) hb0
          · exact absurd (Or.inr h) hb0
          · exact h
        rw [if_neg (by simp [ha0])]
        exact hrec

/-- C8 (amended): the console login prompts at most 3 times and never reads a
4th prompt; three consecutive blank-or-wrong pairs exhaust the attempts and
the process reports failure with exit status 1; a blank username or password
is rejected with only a warning but still consumes one of the 3 attempts (see
the counterexample theorem); and a correct pair at any of the 3 prompts,
after blank or wrong earlier ones, succeeds immediately. -/
theorem console_login_attempt_cap (expired : List String)
    (inp inp' : Nat → String × String) :
    ((consoleLogin expired inp).2 ≤ 3) ∧
    ((∀ k < 3, inp k = inp' k) → consoleLogin expired inp = consoleLogin expired inp') ∧
    ((∀ k < 3, failsAttempt expired (inp k)) →
      consoleLogin expired inp = (false, 3) ∧ loginExitCode expired inp = 1) ∧
    (∀ j < 3, (∀ k < j, failsAttempt expired (inp k)) →
      ¬ (stripWs (inp j).1 = "" ∨ stripWs (inp j).2 = "") →
      authenticate expired (stripWs (inp j).1) (stripWs (inp j).2) = true →
      consoleLogin expired inp = (true, j + 1)) := by
  refine ⟨?_, ?_, ?_, ?_⟩
  · simpa using consoleLoginAux_used_le expired inp 3 0
  · intro hk
    exact consoleLoginAux_local expired inp inp' 3 0 (fun k h1 h2 => hk k (by omega))
  · intro hf
    have h1 : consoleLogin expired inp = (false, 3) := by
      simpa using consoleLoginAux_all_fail expired inp 3 0 (fun k h1 h2 => hf k (by omega))
    refine ⟨h1, ?_⟩
    unfold loginExitCode
    rw [h1]
    rfl
  · intro j hj hf hb ha
    have := consoleLoginAux_succeeds_at expired inp 3 j 0 hj
      (fun k h1 h2 => hf k (by omega)) (by simpa using hb) (by simpa using ha)
    simpa [consoleLogin] using this

/-- Counterexample for C8 as stated: three blank pairs consume all three
attempts — no 4th prompt is issued even though the correct pair
admin/admin123 would have been typed there, so blank input does consume one
of the 3 attempts. -/
theorem console_login_blank_consumes_attempt :
    consoleLogin [] (fun k => if k < 3 then ("", "") else ("admin", "admin123")) =
      (false, 3) ∧
    authenticate [] "admin" "admin123" = true ∧
    stripWs "" = "" := by
  decide

/-- Input stream typing a wrong password at every prompt. -/
def exInpWrong : Nat → String × String := fun _ => ("admin", "wrong")

/-- Input stream typing a blank username first, then the correct admin pair. -/
def exInpOk : Nat → String × String :=
  fun k => if k = 0 then ("", "x") else ("admin", "admin123")

/-- Witness for the amended C8 theorem: three wrong pairs fail with exit
status 1, and the correct pair at the second prompt (after one blank)
succeeds with two prompts consumed. -/
theorem console_login_attempt_cap_witness :
    (consoleLogin [] exInpWrong = (false, 3) ∧ loginExitCode [] exInpWrong = 1) ∧
    consoleLogin [] exInpOk = (true, 2) :=
  ⟨(console_login_attempt_cap [] exInpWrong exInpWrong).2.2.1 (by decide),
   (console_login_attempt_cap [] exInpOk exInpOk).2.2.2 1 (by decide) (by decide)
     (by decide) (by decide)⟩

/-! ### Search widget, filename-only search
(`SearchWidget.search_by_filename`, `src/ui/search_widget.py`, claim C9) -/

/-- One file met by the `os.walk` under the current directory, with the two
File-Manager verdicts the code consults (`is_supported_file` and the
`supported` flag of `get_file_info`) and the descriptor fields copied into
the result. -/
structure WalkFile where
  dir : String
  name : String
  supportedExt : Bool
  infoSupported : Bool
  fileType : String
  fileSizeMb : Rat
  deriving DecidableEq

/-- Python `os.path.splitext(name)[0]`: strip the extension at the last dot,
unless every character before that dot is itself a dot. -/
def splitExtStem (name : String) : String :=
  let cs := name.data
  let pre := ((cs.reverse.dropWhile (fun c => c != '.')).drop 1).reverse
  if cs.contains '.' && pre.any (fun c => c != '.') then String.mk pre else name

/-- Result dictionary built by `search_by_filename`. -/
structure FilenameResult where
  filename : String
  filePath : String
  fileType : String
  fileSizeMb : Rat
  relevance : Rat
  preview : String
  deriving DecidableEq

/-- The conjunction of checks `search_by_filename` applies to one walked
file: whole-query substring match on the lower-cased extension-stripped name,
then the two supported verdicts. -/
def filenameQueryHit (queryLower : String) (f : WalkFile) : Bool :=
  strContains (lowerStr (splitExtStem f.name)) queryLower &&
    f.supportedExt && f.infoSupported

/-- Collection loop of `search_by_filename`: append matches in walk order,
breaking once `len(results) >= max_results` — the check runs after each
append, so `maxResults` counts remaining capacity. -/
def searchByFilenameLoop (queryLower : String) : Nat → List WalkFile → List WalkFile
  | _, [] => []
  | maxResults, f :: fs =>
    if filenameQueryHit queryLower f then
      if maxResults ≤ 1 then [f]
      else f :: searchByFilenameLoop queryLower (maxResults - 1) fs
    else searchByFilenameLoop queryLower maxResults fs

/-- Result record for one match: filename, joined path, descriptor fields,
relevance fixed at 1.0, and the preview label. -/
def mkFilenameResult (f : WalkFile) : FilenameResult :=
  ⟨f.name, f.dir ++ "/" ++ f.name, f.fileType, f.fileSizeMb, 1,
    "파일명 매칭: " ++ splitExtStem f.name⟩

/-- Final `results.sort(key=lambda x: x['relevance_score'], reverse=True)`. -/
def sortFilenameResults (l : List FilenameResult) : List FilenameResult :=
  l.insertionSort (fun a b => b.relevance ≤ a.relevance)

/-- `SearchWidget.search_by_filename` (the branch `perform_search` takes when
only a filename query is present): `currentDirOk` models the guard
`not self.current_directory or not os.path.exists(...)`. -/
def searchByFilename (currentDirOk : Bool) (files : List WalkFile) (query : String)
    (maxResults : Nat) : List FilenameResult :=
  if currentDirOk = false then []
  else
    sortFilenameResults
      ((searchByFilenameLoop (lowerStr query) maxResults files).map mkFilenameResult)

/-- The collection loop is take-after-filter for any positive capacity. -/
theorem searchByFilenameLoop_eq (queryLower : String) :
    ∀ (files : List WalkFile) (m : Nat), 1 ≤ m →
      searchByFilenameLoop queryLower m files =
        (files.filter (filenameQueryHit queryLower)).take m := by
  intro files
  induction files with
  | nil => intro m hm; simp [searchByFilenameLoop]
  | cons f fs ih =>
    intro m hm
    simp only [searchByFilenameLoop]
    by_cases hhit : filenameQueryHit queryLower f = true
    · rw [if_pos hhit, List.filter_cons_of_pos hhit]
      by_cases hm1 : m ≤ 1
      · rw [if_pos hm1]
        have hm' : m = 1 := by omega
        subst hm'
        simp
      · rw [if_neg hm1]
        rw [ih (m - 1) (by omega)]
        cases m with
        | zero => omega
        | succ m' => simp [List.take_succ_cons]
    · rw [if_neg hhit, List.filter_cons_of_neg hhit]
      exact ih m hm

/-- The final sort is the identity when every relevance equals 1. -/
theorem sortFilenameResults_const (l : List FilenameResult)
    (h : ∀ r ∈ l, r.relevance = 1) : sortFilenameResults l = l := by
  induction l with
  | nil => rfl
  | cons r rs ih =>
    unfold sortFilenameResults at ih ⊢
    simp only [List.insertionSort]
    rw [ih (fun x hx => h x (List.mem_cons_of_mem _ hx))]
    cases rs with
    | nil => rfl
    | cons r2 rs2 =>
      simp only [List.orderedInsert]
      rw [if_pos]
      rw [h r2 (List.mem_cons_of_mem _ (List.mem_cons_self _ _)),
        h r (List.mem_cons_self _ _)]

/-- C9 (amended): with only a filename query present, the widget walks the
file system and returns — in walk order, truncated to `max_results` — exactly
the files passing both File-Manager supported checks whose extension-stripped
filename contains, case-insensitively, the *whole* query string as one
contiguous substring (the query is not split at commas and no
whitespace-insensitive comparison is applied on this path, unlike
`_filter_by_filename`); every result carries relevance 1.0. -/
theorem search_by_filename_whole_query (ok : Bool) (files : List WalkFile)
    (query : String) (m : Nat) :
    (ok = false → searchByFilename ok files query m = []) ∧
    (ok = true → 1 ≤ m →
      searchByFilename ok files query m =
        ((files.filter (filenameQueryHit (lowerStr query))).take m).map mkFilenameResult) ∧
    (∀ r ∈ searchByFilename ok files query m, r.relevance = 1) ∧
    (∀ f, filenameQueryHit (lowerStr query) f =
      (strContains (lowerStr (splitExtStem f.name)) (lowerStr query) &&
        f.supportedExt && f.infoSupported)) := by
  refine ⟨?_, ?_, ?_, fun f => rfl⟩
  · intro hok
    unfold searchByFilename
    rw [if_pos hok]
  · intro hok hm
    subst hok
    unfold searchByFilename
    rw [if_neg (by simp)]
    rw [searchByFilenameLoop_eq (lowerStr query) files m hm]
    rw [List.map_take]
    apply sortFilenameResults_const
    intro r hr
    obtain ⟨f, _, rfl⟩ := List.mem_map.mp (List.mem_of_mem_take hr)
    rfl
  · intro r hr
    unfold searchByFilename at hr
    by_cases hok : ok = false
    · rw [if_pos hok] at hr
      cases hr
    · rw [if_neg hok] at hr
      unfold sortFilenameResults at hr
      rw [List.mem_insertionSort] at hr
      obtain ⟨f, _, rfl⟩ := List.mem_map.mp hr
      rfl

/-- Whitespace stripping used by `_filter_by_filename`'s comparison. -/
def noSpace (s : String) : String :=
  String.mk (s.data.filter (fun c => !(c == ' ' || c == '\n' || c == '\t')))

/-- Modelled from the claim's words (for comparison with the code): each
comma-separated keyword of the query must appear, case-insensitively, in the
extension-stripped filename, with a whitespace-insensitive comparison also
accepted (the keyword handling mirrors `_filter_by_filename`, which the
claim's matching rule describes). -/
def filenameMatchesSpec (name query : String) : Bool :=
  let stem := lowerStr (splitExtStem name)
  let keywords :=
    if strContains query "," then
      (((splitComma query).map stripWs).filter (fun k => k ≠ "")).map lowerStr
    else [lowerStr query]
  keywords.all (fun kw =>
    strContains stem kw || strContains (noSpace stem) (noSpace kw))

/-- Single supported file whose stem "a b" contains both comma-separated
keywords of the query "a, b". -/
def exWalkFiles : List WalkFile := [⟨"/root", "a b.pdf", true, true, "pdf", 1⟩]

/-- Counterexample for C9 as stated: the file satisfies the claim's
comma-separated keyword criterion, but `search_by_filename` returns nothing,
because the code substring-matches the whole query string "a, b". -/
theorem search_by_filename_no_comma_split :
    filenameMatchesSpec "a b.pdf" "a, b" = true ∧
    searchByFilename true exWalkFiles "a, b" 100 = [] := by
  with_unfolding_all decide

/-- Witness for the amended C9 theorem at a concrete walked file list. -/
theorem search_by_filename_whole_query_witness :
    searchByFilename true exWalkFiles "a b" 100 =
      ((exWalkFiles.filter (filenameQueryHit (lowerStr "a b"))).take 100).map
        mkFilenameResult ∧
    searchByFilename false exWalkFiles "a b" 100 = [] :=
  ⟨(search_by_filename_whole_query true exWalkFiles "a b" 100).2.1 rfl (by decide),
   (search_by_filename_whole_query false exWalkFiles "a b" 100).1 rfl⟩

/-! ### Claim C10: blank or tokenless queries -/

/-- C10: `search` returns the empty list whenever the query tokenizes to no
tokens at all (in particular for empty or whitespace-only queries, where the
blank-query guard fires first). -/
theorem search_no_tokens_empty (s : SearchIndex) (query : String) (m : Nat)
    (h : tokenize query = []) : s.search query m = [] := by
  unfold SearchIndex.search
  by_cases hs : stripWs query = ""
  · simp [hs]
  · simp [hs, h]

/-- Witness for C10 at a query whose candidate tokens are all shorter than two
characters or stop words. -/
theorem search_no_tokens_empty_witness :
    tokenize "a the 은" = [] ∧ SearchIndex.empty.search "a the 은" 50 = [] :=
  ⟨by decide, search_no_tokens_empty SearchIndex.empty "a the 은" 50 (by decide)⟩

end FileViewer
